import Mathlib

/-!
Verification of the kdoc comment-extraction engine (package parser of
kociumba/kdoc): a shallow embedding of extractTopComment, extractElements,
extractIDFromSig and ProcessBacklinks, with lines modelled as lists of
characters, and proofs of the documented extraction properties.
-/

namespace Kdoc

/-- A source line, modelled as its list of characters. -/
abbrev Line := List Char

/-- Whitespace as Go's strings.TrimSpace (unicode.IsSpace, ASCII range). -/
def isSpace (c : Char) : Bool :=
  c == ' ' || c == '\t' || c == '\n' || c == '\x0b' || c == '\x0c' || c == '\r'

/-- Whitespace as the Go regexp class \s, which is [\t\n\f\r ]. -/
def isRegexSpace (c : Char) : Bool :=
  c == ' ' || c == '\t' || c == '\n' || c == '\x0c' || c == '\r'

/-- Word characters as the Go regexp class \w, which is [0-9A-Za-z_]. -/
def isWordChar (c : Char) : Bool :=
  c.isAlphanum || c == '_'

/-- Model of strings.TrimSpace: drop whitespace from both ends. -/
def trimSpace (s : Line) : Line :=
  ((s.dropWhile isSpace).reverse.dropWhile isSpace).reverse

/-- Model of strings.Index: the first position where pat occurs in s, if any. -/
def strIndex (pat : Line) : Line → Option Nat
  | [] => if List.isPrefixOf pat [] then some 0 else none
  | c :: rest =>
    if List.isPrefixOf pat (c :: rest) then some 0
    else (strIndex pat rest).map (fun n => n + 1)

/-- The ignoreIndented exclusion test of parser.go lines 60-66 and 94-100: the
comment marker occurs past column 0 and only whitespace stands before it. -/
def isIndentedAt (pfx line : Line) : Bool :=
  match strIndex pfx line with
  | some p => decide (0 < p) && (trimSpace (line.take p)).isEmpty
  | none => false

/-- The basic comment-run test: the trimmed line starts with the marker. -/
def isDocLine (pfx line : Line) : Bool :=
  List.isPrefixOf pfx (trimSpace line)

/-- The per-line normalisation of a collected comment line: content is the
trimmed line minus the marker, minus at most one following space. -/
def stripDoc (pfx line : Line) : Line :=
  let content := (trimSpace line).drop pfx.length
  if content.head? = some ' ' then content.tail else content

/-- The loop of extractTopComment (parser.go lines 52-75): collected
description lines and the remaining slice, starting at the first
non-qualifying line. -/
def extractTopCommentAux (pfx : Line) (ignoreIndented : Bool) :
    List Line → List Line × List Line
  | [] => ([], [])
  | line :: rest =>
    if isDocLine pfx line then
      if ignoreIndented && isIndentedAt pfx line then
        extractTopCommentAux pfx ignoreIndented rest
      else
        let r := extractTopCommentAux pfx ignoreIndented rest
        (stripDoc pfx line :: r.1, r.2)
    else ([], line :: rest)

/-- Model of extractTopComment: the joined module description plus the rest. -/
def extractTopComment (lines : List Line) (pfx : Line) (ignoreIndented : Bool) :
    Line × List Line :=
  let r := extractTopCommentAux pfx ignoreIndented lines
  (List.intercalate ['\n'] r.1, r.2)

/-- The description-collecting inner loop of extractElements (lines 103-118):
the basic marker test only, with no indentation exclusion. -/
def collectDesc (pfx : Line) : List Line → List Line × List Line
  | [] => ([], [])
  | line :: rest =>
    if isDocLine pfx line then
      let r := collectDesc pfx rest
      (stripDoc pfx line :: r.1, r.2)
    else ([], line :: rest)

/-- The interstitial skip of extractElements (lines 126-128): advance past
blank or comment-prefixed lines. -/
def skipBlankComments (pfx : Line) : List Line → List Line
  | [] => []
  | line :: rest =>
    if (trimSpace line).isEmpty || isDocLine pfx line then
      skipBlankComments pfx rest
    else line :: rest

/-- Model of the Go regexp replacement over `\s*{$` (line 133): remove a final
opening brace together with the run of regexp whitespace just before it. -/
def stripBraceEnd (s : Line) : Line :=
  match s.reverse with
  | c :: r => if c = '\x7b' then (r.dropWhile isRegexSpace).reverse else s
  | [] => s

/-- The signature capture of extractElements (lines 130-135). -/
def captureSig : List Line → Line × List Line
  | [] => ([], [])
  | line :: rest =>
    if (trimSpace line).isEmpty then ([], line :: rest)
    else (stripBraceEnd (trimSpace line), rest)

/-- The `\s+(\w+)` part of the keyword rule applied after the keyword: at
least one regexp whitespace, then a maximal nonempty run of word characters. -/
def keywordTailID (t : Line) : Option Line :=
  if (t.takeWhile isRegexSpace).isEmpty then none
  else
    if ((t.dropWhile isRegexSpace).takeWhile isWordChar).isEmpty then none
    else some ((t.dropWhile isRegexSpace).takeWhile isWordChar)

/-- One alternative of the Go regexp `^(?:class|struct)\s+(\w+)`: the keyword
as a prefix, at least one regexp whitespace, then a maximal nonempty run of
word characters. -/
def matchKeywordID (kw sig : Line) : Option Line :=
  if List.isPrefixOf kw sig then keywordTailID (sig.drop kw.length) else none

/-- Model of the anchored class/struct rule (parser.go lines 153-156). -/
def matchClassStruct (sig : Line) : Option Line :=
  match matchKeywordID ("class".toList) sig with
  | some w => some w
  | none => matchKeywordID ("struct".toList) sig

/-- Model of the unanchored Go regexp `(\w+)\s*\(` (lines 158-161): scan left
to right for the first word run followed, after optional regexp whitespace,
by an opening parenthesis. -/
def findFuncName : Line → Option Line
  | [] => none
  | c :: rest =>
    if isWordChar c then
      if (((c :: rest).dropWhile isWordChar).dropWhile isRegexSpace).head? = some '(' then
        some ((c :: rest).takeWhile isWordChar)
      else findFuncName rest
    else findFuncName rest

/-- Model of strings.Fields(sig) restricted to its first element: the first
maximal run of non-whitespace characters (empty when there is none). -/
def firstField (s : Line) : Line :=
  (s.dropWhile isSpace).takeWhile (fun c => !(isSpace c))

/-- Model of extractIDFromSig (parser.go lines 152-169). -/
def extractIDFromSig (sig : Line) : Line :=
  match matchClassStruct sig with
  | some w => w
  | none =>
    match findFuncName sig with
    | some w => w
    | none => firstField sig

/-- An extracted documentation element (the parser Element struct). -/
structure Element where
  ID : Line
  Description : Line
  Signature : Line
deriving DecidableEq, Repr

/-- The identifier recorded at emission (lines 137-140): the derived one, or
unnamed_k when derivation yields nothing, k the count of elements so far. -/
def emittedID (sig : Line) (k : Nat) : Line :=
  let id0 := extractIDFromSig sig
  if id0.isEmpty then ("unnamed_".toList ++ (Nat.repr k).toList) else id0

/-- An extracted documentation element as recorded at emission time. -/
def mkElement (pfx sig : Line) (descLines : List Line) (k : Nat) : Element :=
  { ID := emittedID (stripBraceEnd (trimSpace sig)) k
    Description := List.intercalate ['\n'] (descLines.map (stripDoc pfx))
    Signature := stripBraceEnd (trimSpace sig) }

/-- The outer loop of extractElements (parser.go lines 85-147), fuel-indexed;
none means the fuel ran out. The branch for an empty collected description
repeats the loop at the same position, exactly as the Go continue does. -/
def extractElementsF (pfx : Line) (ignoreIndented : Bool) :
    Nat → List Line → List Element → Option (List Element × List Line)
  | 0, _, _ => none
  | _ + 1, [], elements => some (elements, [])
  | fuel + 1, line :: rest, elements =>
    if isDocLine pfx line then
      if ignoreIndented && isIndentedAt pfx line then
        extractElementsF pfx ignoreIndented fuel rest elements
      else
        let d := collectDesc pfx (line :: rest)
        if d.1.isEmpty then
          extractElementsF pfx ignoreIndented fuel (line :: rest) elements
        else
          let s := captureSig (skipBlankComments pfx d.2)
          extractElementsF pfx ignoreIndented fuel s.2
            (elements ++ [{ ID := emittedID s.1 elements.length,
                            Description := List.intercalate ['\n'] d.1,
                            Signature := s.1 }])
    else
      extractElementsF pfx ignoreIndented fuel rest elements

/-- Model of extractElements: the loop with fuel one more than the number of
lines, which the fuel-sufficiency theorem shows is always enough. -/
def extractElements (lines : List Line) (pfx : Line) (ignoreIndented : Bool) :
    List Element × List Line :=
  (extractElementsF pfx ignoreIndented (lines.length + 1) lines []).getD ([], [])

/-- The replacement for one matched bracketed token (parser.go lines 174-182). -/
def resolveToken (linkIndex : List (Line × Line)) (t : Line) : Line :=
  match List.lookup t linkIndex with
  | some link => ('[' :: t) ++ (']' :: '(' :: (link ++ [')']))
  | none => ('[' :: t) ++ [']']

/-- Fuel-indexed scan of the Go regexp replacement over `\[([^\]]+)\]` (parser
lines 171-184): at an opening bracket, take the maximal run of non-closing
characters and require a closing bracket right after; characters at
non-matching positions are copied unchanged. -/
def processBacklinksF (linkIndex : List (Line × Line)) : Nat → Line → Line
  | 0, s => s
  | _ + 1, [] => []
  | fuel + 1, c :: rest =>
    if c == '[' then
      match rest.dropWhile (fun x => x != ']') with
      | ']' :: tail =>
        if (rest.takeWhile (fun x => x != ']')).isEmpty then
          c :: processBacklinksF linkIndex fuel rest
        else
          resolveToken linkIndex (rest.takeWhile (fun x => x != ']')) ++
            processBacklinksF linkIndex fuel tail
      | _ => c :: processBacklinksF linkIndex fuel rest
    else c :: processBacklinksF linkIndex fuel rest

/-- Model of ProcessBacklinks; the comment-marker argument is unused, exactly
as in the Go code. -/
def ProcessBacklinks (desc : Line) (linkIndex : List (Line × Line)) (_pfx : Line) : Line :=
  processBacklinksF linkIndex desc.length desc

/-- Whether the Go regexp `\[([^\]]+)\]` matches anywhere in s. -/
def hasToken : Line → Bool
  | [] => false
  | c :: rest =>
    (c == '[' && !(rest.takeWhile (fun x => x != ']')).isEmpty
       && !(rest.dropWhile (fun x => x != ']')).isEmpty)
    || hasToken rest

/-- Input assembly for the pairing property: each block is a comment run, a
signature line and trailing filler lines, laid out one after another. -/
def assemble (blocks : List (List Line × Line × List Line)) : List Line :=
  blocks.flatMap (fun b => b.1 ++ b.2.1 :: b.2.2)

/-- The side conditions making a block a genuine comment-run-then-signature
pair: a non-empty run of qualifying lines none of which the indentation policy
would skip, a non-blank non-qualifying signature line, and non-qualifying
filler lines after it. -/
abbrev goodBlock (pfx : Line) (ign : Bool) (b : List Line × Line × List Line) : Prop :=
  b.1 ≠ [] ∧
  (∀ l ∈ b.1, isDocLine pfx l = true ∧ (ign && isIndentedAt pfx l) = false) ∧
  (trimSpace b.2.1).isEmpty = false ∧
  isDocLine pfx b.2.1 = false ∧
  (∀ l ∈ b.2.2, isDocLine pfx l = false)

/-! ## List helper lemmas -/

theorem takeWhile_all {p : Char → Bool} {xs : Line} (h : ∀ c ∈ xs, p c = true) :
    xs.takeWhile p = xs := by
  induction xs with
  | nil => rfl
  | cons x xs ih =>
    rw [List.takeWhile_cons, if_pos (h x (List.mem_cons_self x xs)),
      ih (fun c hc => h c (List.mem_cons_of_mem x hc))]

theorem dropWhile_all {p : Char → Bool} {xs : Line} (h : ∀ c ∈ xs, p c = true) :
    xs.dropWhile p = [] :=
  List.dropWhile_eq_nil_iff.2 h

theorem takeWhile_append_all {p : Char → Bool} {xs : Line} (ys : Line)
    (h : ∀ c ∈ xs, p c = true) :
    (xs ++ ys).takeWhile p = xs ++ ys.takeWhile p := by
  rw [List.takeWhile_append, takeWhile_all h, if_pos rfl]

theorem dropWhile_append_all {p : Char → Bool} {xs : Line} (ys : Line)
    (h : ∀ c ∈ xs, p c = true) :
    (xs ++ ys).dropWhile p = ys.dropWhile p := by
  rw [List.dropWhile_append, dropWhile_all h]
  rfl

theorem takeWhile_cons_neg {p : Char → Bool} {x : Char} (xs : Line)
    (h : p x = false) : (x :: xs).takeWhile p = [] := by
  rw [List.takeWhile_cons, if_neg (by simp [h])]

theorem dropWhile_cons_neg {p : Char → Bool} {x : Char} (xs : Line)
    (h : p x = false) : (x :: xs).dropWhile p = x :: xs := by
  rw [List.dropWhile_cons, if_neg (by simp [h])]

theorem length_dropWhile_le (p : Char → Bool) (xs : Line) :
    (xs.dropWhile p).length ≤ xs.length :=
  (List.dropWhile_sublist (l := xs) p).length_le

theorem exists_append_of_snoc_append {α : Type} {a m r : List α} {x : α}
    (h : r = (a ++ [x]) ++ m) : ∃ w, r = a ++ w :=
  ⟨[x] ++ m, by rw [h, List.append_assoc]⟩

/-! ## trimSpace lemmas -/

theorem trimSpace_nil : trimSpace [] = [] := rfl

theorem trimSpace_pad {ws1 ws2 : Line} (s : Line)
    (h1 : ∀ c ∈ ws1, isSpace c = true) (h2 : ∀ c ∈ ws2, isSpace c = true) :
    trimSpace (ws1 ++ s ++ ws2) = trimSpace s := by
  unfold trimSpace
  rw [List.append_assoc, dropWhile_append_all (s ++ ws2) h1, List.dropWhile_append]
  by_cases he : (s.dropWhile isSpace).isEmpty = true
  · rw [if_pos he, dropWhile_all h2]
    rw [List.isEmpty_iff] at he
    rw [he]
  · rw [if_neg he, List.reverse_append,
      dropWhile_append_all _ (fun c hc => h2 c (List.mem_reverse.1 hc))]

/-! ## Step lemmas for the scanning loops -/

theorem collectDesc_cons_doc {pfx line : Line} (rest : List Line)
    (h : isDocLine pfx line = true) :
    collectDesc pfx (line :: rest) =
      (stripDoc pfx line :: (collectDesc pfx rest).1, (collectDesc pfx rest).2) := by
  simp [collectDesc, h]

theorem collectDesc_cons_neg {pfx line : Line} (rest : List Line)
    (h : isDocLine pfx line = false) :
    collectDesc pfx (line :: rest) = ([], line :: rest) := by
  simp [collectDesc, h]

theorem collectDesc_append_run {pfx : Line} {run : List Line} (rest : List Line)
    (h : ∀ l ∈ run, isDocLine pfx l = true) :
    collectDesc pfx (run ++ rest) =
      (run.map (stripDoc pfx) ++ (collectDesc pfx rest).1, (collectDesc pfx rest).2) := by
  induction run with
  | nil => simp
  | cons l ls ih =>
    rw [List.cons_append, collectDesc_cons_doc _ (h l (List.mem_cons_self l ls)),
      ih (fun x hx => h x (List.mem_cons_of_mem l hx))]
    simp

theorem collectDesc_length (pfx : Line) (lines : List Line) :
    (collectDesc pfx lines).2.length ≤ lines.length := by
  induction lines with
  | nil => simp [collectDesc]
  | cons l rest ih =>
    cases h : isDocLine pfx l with
    | true =>
      rw [collectDesc_cons_doc rest h]
      exact le_trans ih (by simp)
    | false =>
      rw [collectDesc_cons_neg rest h]

theorem skipBlankComments_cons_skip {pfx line : Line} (rest : List Line)
    (h : ((trimSpace line).isEmpty || isDocLine pfx line) = true) :
    skipBlankComments pfx (line :: rest) = skipBlankComments pfx rest := by
  simp [skipBlankComments, h]

theorem skipBlankComments_cons_stop {pfx line : Line} (rest : List Line)
    (h : ((trimSpace line).isEmpty || isDocLine pfx line) = false) :
    skipBlankComments pfx (line :: rest) = line :: rest := by
  simp [skipBlankComments, h]

theorem skipBlankComments_append_all {pfx : Line} {js : List Line} (rest : List Line)
    (h : ∀ l ∈ js, ((trimSpace l).isEmpty || isDocLine pfx l) = true) :
    skipBlankComments pfx (js ++ rest) = skipBlankComments pfx rest := by
  induction js with
  | nil => rfl
  | cons l ls ih =>
    rw [List.cons_append, skipBlankComments_cons_skip _ (h l (List.mem_cons_self l ls))]
    exact ih (fun x hx => h x (List.mem_cons_of_mem l hx))

theorem skipBlankComments_length (pfx : Line) (lines : List Line) :
    (skipBlankComments pfx lines).length ≤ lines.length := by
  induction lines with
  | nil => simp [skipBlankComments]
  | cons l rest ih =>
    cases h : ((trimSpace l).isEmpty || isDocLine pfx l) with
    | true =>
      rw [skipBlankComments_cons_skip rest h]
      exact le_trans ih (by simp)
    | false =>
      rw [skipBlankComments_cons_stop rest h]

theorem captureSig_length (lines : List Line) :
    (captureSig lines).2.length ≤ lines.length := by
  cases lines with
  | nil => simp [captureSig]
  | cons l rest =>
    cases h : (trimSpace l).isEmpty with
    | true => simp [captureSig, h]
    | false => simp [captureSig, h]

/-! ## The extractElements loop: step equations, fuel irrelevance, totality -/

theorem extractElementsF_nil (pfx : Line) (ign : Bool) (fuel : Nat) (acc : List Element) :
    extractElementsF pfx ign (fuel + 1) [] acc = some (acc, []) := rfl

theorem extractElementsF_cons_notdoc {pfx line : Line} {ign : Bool} (fuel : Nat)
    (rest : List Line) (acc : List Element) (h : isDocLine pfx line = false) :
    extractElementsF pfx ign (fuel + 1) (line :: rest) acc =
      extractElementsF pfx ign fuel rest acc := by
  simp [extractElementsF, h]

theorem extractElementsF_cons_skip {pfx line : Line} {ign : Bool} (fuel : Nat)
    (rest : List Line) (acc : List Element) (h1 : isDocLine pfx line = true)
    (h2 : (ign && isIndentedAt pfx line) = true) :
    extractElementsF pfx ign (fuel + 1) (line :: rest) acc =
      extractElementsF pfx ign fuel rest acc := by
  simp [extractElementsF, h1, h2]

theorem extractElementsF_cons_emit {pfx line : Line} {ign : Bool} (fuel : Nat)
    (rest : List Line) (acc : List Element) (h1 : isDocLine pfx line = true)
    (h2 : (ign && isIndentedAt pfx line) = false) :
    extractElementsF pfx ign (fuel + 1) (line :: rest) acc =
      extractElementsF pfx ign fuel
        (captureSig (skipBlankComments pfx (collectDesc pfx rest).2)).2
        (acc ++ [{
          ID := emittedID
            (captureSig (skipBlankComments pfx (collectDesc pfx rest).2)).1 acc.length,
          Description :=
            List.intercalate ['\n'] (stripDoc pfx line :: (collectDesc pfx rest).1),
          Signature :=
            (captureSig (skipBlankComments pfx (collectDesc pfx rest).2)).1 }]) := by
  simp [extractElementsF, h1, h2, collectDesc_cons_doc rest h1]

theorem extractElementsF_rest_length (pfx : Line) (rest : List Line) :
    (captureSig (skipBlankComments pfx (collectDesc pfx rest).2)).2.length ≤ rest.length :=
  le_trans (captureSig_length _)
    (le_trans (skipBlankComments_length _ _) (collectDesc_length _ _))

theorem extractElementsF_fuel {pfx : Line} {ign : Bool} :
    ∀ (f1 : Nat) (lines : List Line) (acc : List Element) (f2 : Nat),
      lines.length < f1 → lines.length < f2 →
      extractElementsF pfx ign f1 lines acc = extractElementsF pfx ign f2 lines acc := by
  intro f1
  induction f1 with
  | zero => exact fun lines acc f2 h1 _ => absurd h1 (Nat.not_lt_zero _)
  | succ f ih =>
    intro lines acc f2 h1 h2
    obtain ⟨g, rfl⟩ : ∃ g, f2 = g + 1 := ⟨f2 - 1, by omega⟩
    cases lines with
    | nil => rfl
    | cons line rest =>
      have hr : rest.length < f := by simp only [List.length_cons] at h1; omega
      have hr2 : rest.length < g := by simp only [List.length_cons] at h2; omega
      cases hdoc : isDocLine pfx line with
      | false =>
        rw [extractElementsF_cons_notdoc f rest acc hdoc,
          extractElementsF_cons_notdoc g rest acc hdoc]
        exact ih rest acc g hr hr2
      | true =>
        cases hskip : (ign && isIndentedAt pfx line) with
        | true =>
          rw [extractElementsF_cons_skip f rest acc hdoc hskip,
            extractElementsF_cons_skip g rest acc hdoc hskip]
          exact ih rest acc g hr hr2
        | false =>
          rw [extractElementsF_cons_emit f rest acc hdoc hskip,
            extractElementsF_cons_emit g rest acc hdoc hskip]
          exact ih _ _ g (lt_of_le_of_lt (extractElementsF_rest_length pfx rest) hr)
            (lt_of_le_of_lt (extractElementsF_rest_length pfx rest) hr2)

theorem extractElementsF_total (pfx : Line) (ign : Bool) :
    ∀ (f : Nat) (lines : List Line) (acc : List Element),
      lines.length < f → ∃ r, extractElementsF pfx ign f lines acc = some r := by
  intro f
  induction f with
  | zero => exact fun lines acc h => absurd h (Nat.not_lt_zero _)
  | succ f ih =>
    intro lines acc h
    cases lines with
    | nil => exact ⟨(acc, []), rfl⟩
    | cons line rest =>
      have hr : rest.length < f := by simp only [List.length_cons] at h; omega
      cases hdoc : isDocLine pfx line with
      | false =>
        rw [extractElementsF_cons_notdoc f rest acc hdoc]
        exact ih rest acc hr
      | true =>
        cases hskip : (ign && isIndentedAt pfx line) with
        | true =>
          rw [extractElementsF_cons_skip f rest acc hdoc hskip]
          exact ih rest acc hr
        | false =>
          rw [extractElementsF_cons_emit f rest acc hdoc hskip]
          exact ih _ _ (lt_of_le_of_lt (extractElementsF_rest_length pfx rest) hr)

theorem extractElementsF_skip_junk {pfx : Line} {ign : Bool} :
    ∀ (js n : List Line) (acc : List Element) (f : Nat),
      (∀ l ∈ js, isDocLine pfx l = false ∨ (ign && isIndentedAt pfx l) = true) →
      (js ++ n).length < f →
      extractElementsF pfx ign f (js ++ n) acc =
        extractElementsF pfx ign (n.length + 1) n acc := by
  intro js
  induction js with
  | nil =>
    intro n acc f h hf
    exact extractElementsF_fuel f n acc _ (by simpa using hf) (by omega)
  | cons j js ih =>
    intro n acc f h hf
    obtain ⟨g, rfl⟩ : ∃ g, f = g + 1 := ⟨f - 1, by omega⟩
    have hg : (js ++ n).length < g := by
      simp only [List.cons_append, List.length_cons] at hf; omega
    have hrec := ih n acc g (fun x hx => h x (List.mem_cons_of_mem j hx)) hg
    cases hdoc : isDocLine pfx j with
    | false =>
      rw [List.cons_append, extractElementsF_cons_notdoc g _ acc hdoc]
      exact hrec
    | true =>
      have hsk : (ign && isIndentedAt pfx j) = true := by
        rcases h j (List.mem_cons_self j js) with hj | hj
        · rw [hdoc] at hj; exact absurd hj (by simp)
        · exact hj
      rw [List.cons_append, extractElementsF_cons_skip g _ acc hdoc hsk]
      exact hrec

theorem extractElements_blocks {pfx : Line} {ign : Bool} :
    ∀ (blocks : List (List Line × Line × List Line)) (junk0 : List Line)
      (acc : List Element) (f : Nat),
      (∀ l ∈ junk0, isDocLine pfx l = false) →
      (∀ b ∈ blocks, goodBlock pfx ign b) →
      (junk0 ++ assemble blocks).length < f →
      ∃ elts,
        extractElementsF pfx ign f (junk0 ++ assemble blocks) acc =
          some (acc ++ elts, []) ∧
        elts.map (fun e => (e.Description, e.Signature)) =
          blocks.map (fun b =>
            (List.intercalate ['\n'] (b.1.map (stripDoc pfx)),
             stripBraceEnd (trimSpace b.2.1))) := by
  intro blocks
  induction blocks with
  | nil =>
    intro junk0 acc f hj _ hf
    refine ⟨[], ?_, rfl⟩
    rw [show assemble [] = [] from rfl] at hf ⊢
    rw [extractElementsF_skip_junk junk0 [] acc f (fun l hl => Or.inl (hj l hl)) hf]
    simpa using extractElementsF_nil pfx ign 0 acc
  | cons b bs ih =>
    intro junk0 acc f hj hb hf
    obtain ⟨run, sig, junkA⟩ := b
    obtain ⟨hrun, hdocs, hsig1, hsig2, hjA⟩ := hb _ (List.mem_cons_self _ bs)
    obtain ⟨l0, rt, rfl⟩ : ∃ l0 rt, run = l0 :: rt := by
      cases run with
      | nil => exact absurd rfl hrun
      | cons a as => exact ⟨a, as, rfl⟩
    have hasm : assemble (((l0 :: rt), sig, junkA) :: bs) =
        l0 :: (rt ++ sig :: (junkA ++ assemble bs)) := by
      simp [assemble, List.flatMap_cons]
    rw [hasm] at hf ⊢
    set n : List Line := l0 :: (rt ++ sig :: (junkA ++ assemble bs)) with hn
    rw [extractElementsF_skip_junk junk0 n acc f (fun l hl => Or.inl (hj l hl)) hf]
    have hstep := extractElementsF_cons_emit
      ((rt ++ sig :: (junkA ++ assemble bs)).length + 1)
      (rt ++ sig :: (junkA ++ assemble bs)) acc
      (hdocs l0 (List.mem_cons_self _ _)).1 (hdocs l0 (List.mem_cons_self _ _)).2
    have hcd : collectDesc pfx (rt ++ sig :: (junkA ++ assemble bs)) =
        (rt.map (stripDoc pfx), sig :: (junkA ++ assemble bs)) := by
      rw [collectDesc_append_run _ (fun l hl => (hdocs l (List.mem_cons_of_mem l0 hl)).1),
        collectDesc_cons_neg _ hsig2]
      simp
    have hsk : skipBlankComments pfx (sig :: (junkA ++ assemble bs)) =
        sig :: (junkA ++ assemble bs) :=
      skipBlankComments_cons_stop _ (by rw [hsig1, hsig2]; rfl)
    have hcs : captureSig (sig :: (junkA ++ assemble bs)) =
        (stripBraceEnd (trimSpace sig), junkA ++ assemble bs) := by
      simp only at hsig1
      simp [captureSig, hsig1]
    rw [hcd, hsk, hcs] at hstep
    simp only at hstep
    have hlen : (junkA ++ assemble bs).length < (rt ++ sig :: (junkA ++ assemble bs)).length := by
      simp only [List.length_append, List.length_cons]
      omega
    obtain ⟨elts, hrec, hmap⟩ := ih junkA
      (acc ++ [{ ID := emittedID (stripBraceEnd (trimSpace sig)) acc.length,
                 Description := List.intercalate ['\n']
                   (stripDoc pfx l0 :: rt.map (stripDoc pfx)),
                 Signature := stripBraceEnd (trimSpace sig) }])
      ((rt ++ sig :: (junkA ++ assemble bs)).length + 1)
      hjA (fun x hx => hb x (List.mem_cons_of_mem _ hx)) (Nat.lt_succ_of_lt hlen)
    refine ⟨{ ID := emittedID (stripBraceEnd (trimSpace sig)) acc.length,
              Description := List.intercalate ['\n']
                (stripDoc pfx l0 :: rt.map (stripDoc pfx)),
              Signature := stripBraceEnd (trimSpace sig) } :: elts, ?_, ?_⟩
    · rw [hn]
      simp only [List.length_cons]
      rw [hstep, hrec]
      simp
    · simp only [List.map_cons, hmap]

theorem extractElementsF_tail_run {pfx : Line} {ign : Bool}
    (junk0 run blanks : List Line) (acc : List Element) (f : Nat)
    (hj : ∀ l ∈ junk0, isDocLine pfx l = false)
    (hrun : run ≠ [])
    (hdocs : ∀ l ∈ run, isDocLine pfx l = true ∧ (ign && isIndentedAt pfx l) = false)
    (hbl : ∀ l ∈ blanks, (trimSpace l).isEmpty = true ∧ isDocLine pfx l = false)
    (hf : (junk0 ++ run ++ blanks).length < f) :
    extractElementsF pfx ign f (junk0 ++ run ++ blanks) acc =
      some (acc ++ [{ ID := emittedID [] acc.length,
                      Description := List.intercalate ['\n'] (run.map (stripDoc pfx)),
                      Signature := [] }], []) := by
  obtain ⟨l0, rt, rfl⟩ : ∃ l0 rt, run = l0 :: rt := by
    cases run with
    | nil => exact absurd rfl hrun
    | cons a as => exact ⟨a, as, rfl⟩
  rw [List.append_assoc] at hf ⊢
  have hcons : (l0 :: rt) ++ blanks = l0 :: (rt ++ blanks) := rfl
  rw [hcons] at hf ⊢
  rw [extractElementsF_skip_junk junk0 _ acc f (fun l hl => Or.inl (hj l hl)) hf]
  simp only [List.length_cons]
  have hstep := extractElementsF_cons_emit
    ((rt ++ blanks).length + 1) (rt ++ blanks) acc
    (hdocs l0 (List.mem_cons_self _ _)).1 (hdocs l0 (List.mem_cons_self _ _)).2
  have hcb : collectDesc pfx blanks = ([], blanks) := by
    cases blanks with
    | nil => rfl
    | cons bl bls => exact collectDesc_cons_neg bls (hbl bl (List.mem_cons_self _ _)).2
  have hcd : collectDesc pfx (rt ++ blanks) = (rt.map (stripDoc pfx), blanks) := by
    rw [collectDesc_append_run _ (fun l hl => (hdocs l (List.mem_cons_of_mem l0 hl)).1), hcb]
    simp
  have hsk : skipBlankComments pfx blanks = [] := by
    have hbc : ∀ l ∈ blanks, ((trimSpace l).isEmpty || isDocLine pfx l) = true :=
      fun l hl => by rw [(hbl l hl).1]; rfl
    have h2 := skipBlankComments_append_all [] hbc
    rwa [List.append_nil] at h2
  rw [hcd, hsk] at hstep
  simp only [captureSig] at hstep
  rw [hstep, extractElementsF_nil]
  simp

theorem extractElementsF_acc_prefix {pfx : Line} {ign : Bool} :
    ∀ (f : Nat) (lines : List Line) (acc : List Element)
      (r : List Element × List Line),
      extractElementsF pfx ign f lines acc = some r → ∃ more, r.1 = acc ++ more := by
  intro f
  induction f with
  | zero => intro lines acc r h; exact absurd h (by simp [extractElementsF])
  | succ f ih =>
    intro lines acc r h
    cases lines with
    | nil =>
      rw [extractElementsF_nil] at h
      exact ⟨[], by simp [← Option.some_inj.1 h]⟩
    | cons line rest =>
      cases hdoc : isDocLine pfx line with
      | false =>
        rw [extractElementsF_cons_notdoc f rest acc hdoc] at h
        exact ih rest acc r h
      | true =>
        cases hskip : (ign && isIndentedAt pfx line) with
        | true =>
          rw [extractElementsF_cons_skip f rest acc hdoc hskip] at h
          exact ih rest acc r h
        | false =>
          rw [extractElementsF_cons_emit f rest acc hdoc hskip] at h
          obtain ⟨more, hm⟩ := ih _ _ r h
          exact exists_append_of_snoc_append hm

/-! ## The extractTopComment loop: step equations and characterisation -/

theorem extractTopCommentAux_cons_stop {pfx line : Line} {ign : Bool} (rest : List Line)
    (h : isDocLine pfx line = false) :
    extractTopCommentAux pfx ign (line :: rest) = ([], line :: rest) := by
  simp [extractTopCommentAux, h]

theorem extractTopCommentAux_cons_skip {pfx line : Line} {ign : Bool} (rest : List Line)
    (h1 : isDocLine pfx line = true) (h2 : (ign && isIndentedAt pfx line) = true) :
    extractTopCommentAux pfx ign (line :: rest) = extractTopCommentAux pfx ign rest := by
  simp [extractTopCommentAux, h1, h2]

theorem extractTopCommentAux_cons_collect {pfx line : Line} {ign : Bool} (rest : List Line)
    (h1 : isDocLine pfx line = true) (h2 : (ign && isIndentedAt pfx line) = false) :
    extractTopCommentAux pfx ign (line :: rest) =
      (stripDoc pfx line :: (extractTopCommentAux pfx ign rest).1,
       (extractTopCommentAux pfx ign rest).2) := by
  simp [extractTopCommentAux, h1, h2]

theorem extractTopCommentAux_spec (pfx : Line) (ign : Bool) :
    ∀ lines : List Line, ∃ k, k ≤ lines.length ∧
      extractTopCommentAux pfx ign lines =
        (((lines.take k).filter
            (fun l => !(ign && isIndentedAt pfx l))).map (stripDoc pfx),
         lines.drop k) ∧
      (∀ l ∈ lines.take k, isDocLine pfx l = true) ∧
      (∀ l, (lines.drop k).head? = some l → isDocLine pfx l = false) := by
  intro lines
  induction lines with
  | nil =>
    refine ⟨0, le_rfl, rfl, ?_, ?_⟩ <;> simp
  | cons line rest ih =>
    obtain ⟨k, hk, heq, hall, hstop⟩ := ih
    cases hdoc : isDocLine pfx line with
    | false =>
      refine ⟨0, Nat.zero_le _, ?_, by simp, ?_⟩
      · rw [extractTopCommentAux_cons_stop rest hdoc]
        simp
      · intro l hl
        simp only [List.drop_zero, List.head?_cons, Option.some.injEq] at hl
        rw [← hl]
        exact hdoc
    | true =>
      cases hskip : (ign && isIndentedAt pfx line) with
      | true =>
        refine ⟨k + 1, by simpa using Nat.succ_le_succ hk, ?_, ?_, ?_⟩
        · rw [extractTopCommentAux_cons_skip rest hdoc hskip, heq, List.take_succ_cons,
            List.drop_succ_cons,
            List.filter_cons_of_neg (by simp [hskip])]
        · intro l hl
          rw [List.take_succ_cons] at hl
          rcases List.mem_cons.1 hl with rfl | hl
          · exact hdoc
          · exact hall l hl
        · intro l hl
          rw [List.drop_succ_cons] at hl
          exact hstop l hl
      | false =>
        refine ⟨k + 1, by simpa using Nat.succ_le_succ hk, ?_, ?_, ?_⟩
        · rw [extractTopCommentAux_cons_collect rest hdoc hskip, heq, List.take_succ_cons,
            List.drop_succ_cons,
            List.filter_cons_of_pos (by simp [hskip])]
          simp
        · intro l hl
          rw [List.take_succ_cons] at hl
          rcases List.mem_cons.1 hl with rfl | hl
          · exact hdoc
          · exact hall l hl
        · intro l hl
          rw [List.drop_succ_cons] at hl
          exact hstop l hl

/-! ## The backlink scan: step equations, fuel irrelevance, rewriting -/

theorem processBacklinksF_zero (idx : List (Line × Line)) (s : Line) :
    processBacklinksF idx 0 s = s := rfl

theorem processBacklinksF_nil (idx : List (Line × Line)) (f : Nat) :
    processBacklinksF idx f [] = [] := by
  cases f <;> rfl

theorem processBacklinksF_cons_plain (idx : List (Line × Line)) (f : Nat) {c : Char}
    (rest : Line) (h : (c == '[') = false) :
    processBacklinksF idx (f + 1) (c :: rest) = c :: processBacklinksF idx f rest := by
  simp [processBacklinksF, h]

theorem head_dropWhile_false {p : Char → Bool} :
    ∀ {l : Line} {d : Char} {tail : Line}, l.dropWhile p = d :: tail → p d = false := by
  intro l
  induction l with
  | nil => intro d tail h; exact absurd h (by simp)
  | cons x xs ih =>
    intro d tail h
    cases hx : p x with
    | true =>
      rw [List.dropWhile_cons, if_pos (by simp [hx])] at h
      exact ih h
    | false =>
      rw [dropWhile_cons_neg _ hx] at h
      cases h
      exact hx

theorem dropWhile_close {rest : Line}
    (h : rest.dropWhile (fun x => x != ']') ≠ []) :
    ∃ tail, rest.dropWhile (fun x => x != ']') = ']' :: tail := by
  rcases hE : rest.dropWhile (fun x => x != ']') with _ | ⟨d, tail⟩
  · exact absurd hE h
  · have hd : d = ']' := by simpa using head_dropWhile_false hE
    exact ⟨tail, by rw [hd]⟩

theorem processBacklinksF_cons_open_token (idx : List (Line × Line)) (f : Nat)
    {rest t tail : Line}
    (hdrop : rest.dropWhile (fun x => x != ']') = ']' :: tail)
    (htake : rest.takeWhile (fun x => x != ']') = t) (htne : t ≠ []) :
    processBacklinksF idx (f + 1) ('[' :: rest) =
      resolveToken idx t ++ processBacklinksF idx f tail := by
  simp [processBacklinksF, hdrop, htake, htne]

theorem processBacklinksF_cons_open_empty (idx : List (Line × Line)) (f : Nat)
    {rest tail : Line}
    (hdrop : rest.dropWhile (fun x => x != ']') = ']' :: tail)
    (htake : rest.takeWhile (fun x => x != ']') = []) :
    processBacklinksF idx (f + 1) ('[' :: rest) =
      '[' :: processBacklinksF idx f rest := by
  simp [processBacklinksF, hdrop, htake]

theorem processBacklinksF_cons_open_noclose (idx : List (Line × Line)) (f : Nat)
    {rest : Line} (hdrop : rest.dropWhile (fun x => x != ']') = []) :
    processBacklinksF idx (f + 1) ('[' :: rest) =
      '[' :: processBacklinksF idx f rest := by
  simp [processBacklinksF, hdrop]

theorem processBacklinksF_fuel (idx : List (Line × Line)) :
    ∀ (f1 : Nat) (s : Line) (f2 : Nat), s.length ≤ f1 → s.length ≤ f2 →
      processBacklinksF idx f1 s = processBacklinksF idx f2 s := by
  intro f1
  induction f1 with
  | zero =>
    intro s f2 h1 _
    have hs : s = [] := List.length_eq_zero.1 (Nat.le_zero.1 h1)
    subst hs
    rw [processBacklinksF_nil, processBacklinksF_nil]
  | succ f ih =>
    intro s f2 h1 h2
    cases s with
    | nil => rw [processBacklinksF_nil, processBacklinksF_nil]
    | cons c rest =>
      obtain ⟨g, rfl⟩ : ∃ g, f2 = g + 1 :=
        ⟨f2 - 1, by simp only [List.length_cons] at h2; omega⟩
      have hr : rest.length ≤ f := by simp only [List.length_cons] at h1; omega
      have hr2 : rest.length ≤ g := by simp only [List.length_cons] at h2; omega
      cases hc : (c == '[') with
      | false =>
        rw [processBacklinksF_cons_plain idx f rest hc,
          processBacklinksF_cons_plain idx g rest hc, ih rest g hr hr2]
      | true =>
        have hceq : c = '[' := by simpa using hc
        subst hceq
        by_cases hdn : rest.dropWhile (fun x => x != ']') = []
        · rw [processBacklinksF_cons_open_noclose idx f hdn,
            processBacklinksF_cons_open_noclose idx g hdn, ih rest g hr hr2]
        · obtain ⟨tail, hdrop⟩ := dropWhile_close hdn
          by_cases htk : rest.takeWhile (fun x => x != ']') = []
          · rw [processBacklinksF_cons_open_empty idx f hdrop htk,
              processBacklinksF_cons_open_empty idx g hdrop htk, ih rest g hr hr2]
          · have htail : tail.length ≤ rest.length := by
              have h3 := length_dropWhile_le (fun x => x != ']') rest
              rw [hdrop] at h3
              simp only [List.length_cons] at h3
              omega
            rw [processBacklinksF_cons_open_token idx f hdrop rfl htk,
              processBacklinksF_cons_open_token idx g hdrop rfl htk,
              ih tail g (le_trans htail hr) (le_trans htail hr2)]

theorem processBacklinksF_no_token (idx : List (Line × Line)) :
    ∀ (f : Nat) (s : Line), s.length ≤ f → hasToken s = false →
      processBacklinksF idx f s = s := by
  intro f
  induction f with
  | zero =>
    intro s h1 _
    have hs : s = [] := List.length_eq_zero.1 (Nat.le_zero.1 h1)
    subst hs
    rfl
  | succ f ih =>
    intro s h1 h2
    cases s with
    | nil => rfl
    | cons c rest =>
      have hr : rest.length ≤ f := by simp only [List.length_cons] at h1; omega
      have h2' : hasToken rest = false ∧
          (c == '[' && !(rest.takeWhile (fun x => x != ']')).isEmpty
            && !(rest.dropWhile (fun x => x != ']')).isEmpty) = false := by
        rw [hasToken] at h2
        exact ⟨(Bool.or_eq_false_iff.1 h2).2, (Bool.or_eq_false_iff.1 h2).1⟩
      cases hc : (c == '[') with
      | false =>
        rw [processBacklinksF_cons_plain idx f rest hc, ih rest hr h2'.1]
      | true =>
        have hceq : c = '[' := by simpa using hc
        subst hceq
        by_cases hdn : rest.dropWhile (fun x => x != ']') = []
        · rw [processBacklinksF_cons_open_noclose idx f hdn, ih rest hr h2'.1]
        · obtain ⟨tail, hdrop⟩ := dropWhile_close hdn
          have htk : rest.takeWhile (fun x => x != ']') = [] := by
            have h3 := h2'.2
            rw [hc] at h3
            simp only [Bool.true_and, Bool.and_eq_false_iff] at h3
            rcases h3 with h3 | h3
            · simpa [List.isEmpty_iff] using h3
            · rw [hdrop] at h3
              simp at h3
          rw [processBacklinksF_cons_open_empty idx f hdrop htk, ih rest hr h2'.1]

theorem processBacklinksF_decompose (idx : List (Line × Line)) :
    ∀ (a t b : Line) (f : Nat), (∀ c ∈ a, c ≠ '[') → t ≠ [] → (∀ c ∈ t, c ≠ ']') →
      (a ++ '[' :: (t ++ ']' :: b)).length ≤ f →
      processBacklinksF idx f (a ++ '[' :: (t ++ ']' :: b)) =
        a ++ resolveToken idx t ++ processBacklinksF idx b.length b := by
  intro a
  induction a with
  | nil =>
    intro t b f ha ht htc hf
    simp only [List.nil_append] at hf ⊢
    obtain ⟨g, rfl⟩ : ∃ g, f = g + 1 :=
      ⟨f - 1, by simp only [List.length_cons] at hf; omega⟩
    have htake : (t ++ ']' :: b).takeWhile (fun x => x != ']') = t := by
      rw [takeWhile_append_all _ (fun c hc => by simpa using htc c hc),
        takeWhile_cons_neg _ (by simp), List.append_nil]
    have hdrop : (t ++ ']' :: b).dropWhile (fun x => x != ']') = ']' :: b := by
      rw [dropWhile_append_all _ (fun c hc => by simpa using htc c hc),
        dropWhile_cons_neg _ (by simp)]
    rw [processBacklinksF_cons_open_token idx g hdrop htake ht]
    have hg : b.length ≤ g := by
      simp only [List.length_cons, List.length_append] at hf
      omega
    rw [processBacklinksF_fuel idx g b b.length hg le_rfl]
  | cons c a ih =>
    intro t b f ha ht htc hf
    obtain ⟨g, rfl⟩ : ∃ g, f = g + 1 :=
      ⟨f - 1, by simp only [List.cons_append, List.length_cons] at hf; omega⟩
    have hc : (c == '[') = false := by
      have h4 := ha c (List.mem_cons_self c a)
      simp [h4]
    rw [List.cons_append, processBacklinksF_cons_plain idx g _ hc,
      ih t b g (fun x hx => ha x (List.mem_cons_of_mem c hx)) ht htc
        (by simp only [List.cons_append, List.length_cons] at hf; omega)]
    simp

/-! ## Character class facts -/

theorem space_not_word {c : Char} (h : isRegexSpace c = true) : isWordChar c = false := by
  have h5 : c = ' ' ∨ c = '\t' ∨ c = '\n' ∨ c = '\x0c' ∨ c = '\r' := by
    simpa [isRegexSpace, or_assoc] using h
  rcases h5 with rfl | rfl | rfl | rfl | rfl <;> decide

theorem word_not_space {c : Char} (h : isWordChar c = true) : isRegexSpace c = false := by
  cases hsp : isRegexSpace c with
  | false => rfl
  | true => rw [space_not_word hsp] at h; exact absurd h (by simp)

/-! ## The identifier derivation rules -/

theorem keywordTailID_head_not_space {x : Char} (r : Line) (h : isRegexSpace x = false) :
    keywordTailID (x :: r) = none := by
  unfold keywordTailID
  rw [takeWhile_cons_neg _ h]
  rfl

theorem keywordTailID_space_paren {ws : Line} (rest : Line)
    (hws : ∀ c ∈ ws, isRegexSpace c = true) :
    keywordTailID (ws ++ ('(' :: rest)) = none := by
  unfold keywordTailID
  rw [takeWhile_append_all _ hws, takeWhile_cons_neg _ (by decide), List.append_nil]
  by_cases hwse : ws.isEmpty = true
  · rw [if_pos hwse]
  · rw [if_neg hwse, dropWhile_append_all _ hws, dropWhile_cons_neg _ (by decide),
      takeWhile_cons_neg _ (by decide)]
    rfl

theorem keywordTailID_match {ws w rest : Line}
    (hws : ws ≠ []) (hwsall : ∀ c ∈ ws, isRegexSpace c = true)
    (hw : w ≠ []) (hwall : ∀ c ∈ w, isWordChar c = true)
    (hrest : ∀ c, rest.head? = some c → isWordChar c = false) :
    keywordTailID (ws ++ (w ++ rest)) = some w := by
  obtain ⟨w0, w', rfl⟩ : ∃ w0 w', w = w0 :: w' := by
    cases w with
    | nil => exact absurd rfl hw
    | cons a as => exact ⟨a, as, rfl⟩
  have hw0 : isWordChar w0 = true := hwall w0 (List.mem_cons_self _ _)
  have htr : ((w0 :: w') ++ rest).takeWhile isWordChar = w0 :: w' := by
    rw [takeWhile_append_all _ hwall]
    cases hE : rest with
    | nil => simp
    | cons r0 r' =>
      rw [takeWhile_cons_neg _ (hrest r0 (by rw [hE]; rfl)), List.append_nil]
  unfold keywordTailID
  rw [takeWhile_append_all _ hwsall, List.cons_append,
    takeWhile_cons_neg _ (word_not_space hw0), List.append_nil,
    dropWhile_append_all _ hwsall,
    dropWhile_cons_neg _ (word_not_space hw0)]
  rw [if_neg (by simpa [List.isEmpty_iff] using hws)]
  rw [show w0 :: (w' ++ rest) = (w0 :: w') ++ rest from rfl, htr]
  rw [if_neg (by simp)]

theorem matchKeywordID_match {kw ws w rest : Line}
    (hws : ws ≠ []) (hwsall : ∀ c ∈ ws, isRegexSpace c = true)
    (hw : w ≠ []) (hwall : ∀ c ∈ w, isWordChar c = true)
    (hrest : ∀ c, rest.head? = some c → isWordChar c = false) :
    matchKeywordID kw (kw ++ (ws ++ (w ++ rest))) = some w := by
  unfold matchKeywordID
  rw [if_pos (List.isPrefixOf_iff_prefix.2 (List.prefix_append kw _)), List.drop_left]
  exact keywordTailID_match hws hwsall hw hwall hrest

theorem matchKeywordID_paren_none {kw w ws rest : Line}
    (hkwall : ∀ c ∈ kw, isWordChar c = true)
    (hwall : ∀ c ∈ w, isWordChar c = true)
    (hwsall : ∀ c ∈ ws, isRegexSpace c = true) :
    matchKeywordID kw (w ++ (ws ++ ('(' :: rest))) = none := by
  unfold matchKeywordID
  by_cases hp : List.isPrefixOf kw (w ++ (ws ++ ('(' :: rest))) = true
  case neg => rw [if_neg hp]
  case pos =>
    rw [if_pos hp]
    rw [List.isPrefixOf_iff_prefix] at hp
    rcases List.prefix_or_prefix_of_prefix hp (List.prefix_append w _) with hkw2 | hw2
    · obtain ⟨t, rfl⟩ := hkw2
      rw [List.append_assoc, List.drop_left]
      cases t with
      | nil =>
        rw [List.nil_append]
        exact keywordTailID_space_paren rest hwsall
      | cons t0 t' =>
        have ht0 : isWordChar t0 = true := hwall t0 (by simp)
        rw [List.cons_append]
        exact keywordTailID_head_not_space _ (word_not_space ht0)
    · obtain ⟨u, hu⟩ := hw2
      obtain ⟨t, ht⟩ := hp
      cases u with
      | nil =>
        rw [List.append_nil] at hu
        rw [← hu, List.drop_left]
        exact keywordTailID_space_paren rest hwsall
      | cons u0 u' =>
        exfalso
        rw [← hu, List.append_assoc] at ht
        have hut : (u0 :: u') ++ t = ws ++ ('(' :: rest) := List.append_cancel_left ht
        have hu0w : isWordChar u0 = true := hkwall u0 (by rw [← hu]; simp)
        cases ws with
        | nil =>
          rw [List.nil_append, List.cons_append] at hut
          injection hut with h5 h6
          rw [h5] at hu0w
          exact absurd hu0w (by decide)
        | cons s0 ws' =>
          rw [List.cons_append, List.cons_append] at hut
          injection hut with h5 h6
          have hs0 := hwsall s0 (List.mem_cons_self _ _)
          rw [h5, space_not_word hs0] at hu0w
          exact absurd hu0w (by simp)

theorem findFuncName_paren {w ws rest : Line} (hw : w ≠ [])
    (hwall : ∀ c ∈ w, isWordChar c = true) (hwsall : ∀ c ∈ ws, isRegexSpace c = true) :
    findFuncName (w ++ (ws ++ ('(' :: rest))) = some w := by
  obtain ⟨w0, w', rfl⟩ : ∃ w0 w', w = w0 :: w' := by
    cases w with
    | nil => exact absurd rfl hw
    | cons a as => exact ⟨a, as, rfl⟩
  have hstop : (ws ++ ('(' :: rest)).dropWhile isWordChar = ws ++ ('(' :: rest) := by
    cases ws with
    | nil => exact dropWhile_cons_neg _ (by decide)
    | cons s0 ws' =>
      rw [List.cons_append]
      exact dropWhile_cons_neg _ (space_not_word (hwsall s0 (List.mem_cons_self _ _)))
  have hstop2 : (ws ++ ('(' :: rest)).takeWhile isWordChar = [] := by
    cases ws with
    | nil => exact takeWhile_cons_neg _ (by decide)
    | cons s0 ws' =>
      rw [List.cons_append]
      exact takeWhile_cons_neg _ (space_not_word (hwsall s0 (List.mem_cons_self _ _)))
  rw [List.cons_append, findFuncName]
  rw [if_pos (hwall w0 (List.mem_cons_self _ _))]
  rw [show w0 :: (w' ++ (ws ++ ('(' :: rest))) = (w0 :: w') ++ (ws ++ ('(' :: rest)) from rfl]
  rw [dropWhile_append_all _ hwall, hstop, dropWhile_append_all _ hwsall,
    dropWhile_cons_neg _ (by decide)]
  rw [if_pos (show List.head? ('(' :: rest) = some '(' from rfl)]
  rw [takeWhile_append_all _ hwall, hstop2, List.append_nil]

theorem findFuncName_no_paren : ∀ s : Line, '(' ∉ s → findFuncName s = none := by
  intro s
  induction s with
  | nil => intro _; rfl
  | cons c rest ih =>
    intro h
    have hrest : '(' ∉ rest := fun hx => h (List.mem_cons_of_mem c hx)
    rw [findFuncName]
    by_cases hcw : isWordChar c = true
    case neg => rw [if_neg hcw]; exact ih hrest
    case pos =>
      rw [if_pos hcw, if_neg ?hne]
      · exact ih hrest
      case hne =>
        intro hhead
        rcases hE : ((c :: rest).dropWhile isWordChar).dropWhile isRegexSpace with _ | ⟨d, ds⟩
        · rw [hE] at hhead
          exact absurd hhead (by simp)
        · rw [hE] at hhead
          simp only [List.head?_cons, Option.some.injEq] at hhead
          have hsub : List.Sublist
              (((c :: rest).dropWhile isWordChar).dropWhile isRegexSpace) (c :: rest) :=
            (List.dropWhile_sublist _).trans (List.dropWhile_sublist _)
          refine h (hsub.subset ?_)
          rw [hE, ← hhead]
          exact List.mem_cons_self d ds

theorem class_isPrefixOf_struct_false (X : Line) :
    List.isPrefixOf ("class".toList) ("struct".toList ++ X) = false := rfl

theorem extractIDFromSig_keyword {kw ws w rest : Line}
    (hkw : kw = "class".toList ∨ kw = "struct".toList)
    (hws : ws ≠ []) (hwsall : ∀ c ∈ ws, isRegexSpace c = true)
    (hw : w ≠ []) (hwall : ∀ c ∈ w, isWordChar c = true)
    (hrest : ∀ c, rest.head? = some c → isWordChar c = false) :
    extractIDFromSig (kw ++ (ws ++ (w ++ rest))) = w := by
  unfold extractIDFromSig matchClassStruct
  rcases hkw with rfl | rfl
  · rw [matchKeywordID_match hws hwsall hw hwall hrest]
  · have h1 : matchKeywordID ("class".toList)
        ("struct".toList ++ (ws ++ (w ++ rest))) = none := by
      unfold matchKeywordID
      rw [if_neg (by rw [class_isPrefixOf_struct_false]; exact Bool.false_ne_true)]
    rw [h1, matchKeywordID_match hws hwsall hw hwall hrest]

theorem extractIDFromSig_paren {w ws rest : Line} (hw : w ≠ [])
    (hwall : ∀ c ∈ w, isWordChar c = true) (hwsall : ∀ c ∈ ws, isRegexSpace c = true) :
    extractIDFromSig (w ++ (ws ++ ('(' :: rest))) = w := by
  unfold extractIDFromSig matchClassStruct
  rw [matchKeywordID_paren_none (by decide) hwall hwsall,
    matchKeywordID_paren_none (by decide) hwall hwsall,
    findFuncName_paren hw hwall hwsall]

theorem extractIDFromSig_first_token {sig : Line}
    (hcs : matchClassStruct sig = none) (hnp : '(' ∉ sig) :
    extractIDFromSig sig = firstField sig := by
  unfold extractIDFromSig
  rw [hcs, findFuncName_no_paren sig hnp]

/-! ## Signature capture -/

theorem captureSig_nil : captureSig [] = ([], []) := rfl

theorem captureSig_blank {l : Line} (rest : List Line)
    (h : (trimSpace l).isEmpty = true) :
    captureSig (l :: rest) = ([], l :: rest) := by
  simp [captureSig, h]

theorem captureSig_nonblank {l : Line} (rest : List Line)
    (h : (trimSpace l).isEmpty = false) :
    captureSig (l :: rest) = (stripBraceEnd (trimSpace l), rest) := by
  simp [captureSig, h]

theorem stripBraceEnd_no_brace {s : Line} (h : s.getLast? ≠ some '\x7b') :
    stripBraceEnd s = s := by
  rcases hrev : s.reverse with _ | ⟨c, r⟩
  · simp [stripBraceEnd, hrev]
  · have hc : c ≠ '\x7b' := fun he => h (by rw [← List.head?_reverse, hrev, he]; rfl)
    simp [stripBraceEnd, hrev, hc]

theorem stripBraceEnd_brace {body ws : Line}
    (hws : ∀ c ∈ ws, isRegexSpace c = true)
    (hbody : ∀ c, body.getLast? = some c → isRegexSpace c = false) :
    stripBraceEnd ((body ++ ws) ++ ['\x7b']) = body := by
  have hrev : ((body ++ ws) ++ ['\x7b']).reverse = '\x7b' :: (ws.reverse ++ body.reverse) := by
    simp [List.reverse_append]
  simp only [stripBraceEnd, hrev]
  rw [if_pos trivial, dropWhile_append_all _ (fun c hc => hws c (List.mem_reverse.1 hc))]
  rcases hE : body.reverse with _ | ⟨b0, br⟩
  · rw [List.reverse_eq_nil_iff.1 hE]
    rfl
  · rw [dropWhile_cons_neg _ (hbody b0 (by rw [← List.head?_reverse, hE]; rfl)),
      ← hE, List.reverse_reverse]

/-! ## Per-line normalisation -/

theorem stripDoc_pad {pfx c : Line} (ws1 ws2 : Line)
    (h1 : ∀ x ∈ ws1, isSpace x = true) (h2 : ∀ x ∈ ws2, isSpace x = true)
    (hcore : trimSpace (pfx ++ c) = pfx ++ c) :
    stripDoc pfx (ws1 ++ (pfx ++ c) ++ ws2) =
      if c.head? = some ' ' then c.tail else c := by
  unfold stripDoc
  rw [trimSpace_pad _ h1 h2, hcore, List.drop_left]

theorem isDocLine_pad {pfx c : Line} (ws1 ws2 : Line)
    (h1 : ∀ x ∈ ws1, isSpace x = true) (h2 : ∀ x ∈ ws2, isSpace x = true)
    (hcore : trimSpace (pfx ++ c) = pfx ++ c) :
    isDocLine pfx (ws1 ++ (pfx ++ c) ++ ws2) = true := by
  unfold isDocLine
  rw [trimSpace_pad _ h1 h2, hcore]
  exact List.isPrefixOf_iff_prefix.2 (List.prefix_append pfx c)

theorem extractTopComment_single {pfx line : Line} {ign : Bool}
    (h1 : isDocLine pfx line = true) (h2 : (ign && isIndentedAt pfx line) = false) :
    extractTopComment [line] pfx ign = (stripDoc pfx line, []) := by
  unfold extractTopComment
  rw [extractTopCommentAux_cons_collect [] h1 h2]
  simp [List.intercalate, extractTopCommentAux]

/-! ## Claim theorems -/

/-- C10: extractElements terminates on every input: the embedded loop,
including the empty-description continue branch, converges with fuel one more
than the number of lines (the scan strictly advances every reachable outer
iteration), and any larger fuel computes the same result. -/
theorem extractElements_terminates (pfx : Line) (ign : Bool) (lines : List Line)
    (acc : List Element) :
    (∃ r, extractElementsF pfx ign (lines.length + 1) lines acc = some r) ∧
    (∀ f, lines.length < f →
      extractElementsF pfx ign f lines acc =
        extractElementsF pfx ign (lines.length + 1) lines acc) := by
  constructor
  · exact extractElementsF_total pfx ign (lines.length + 1) lines acc (Nat.lt_succ_self _)
  · intro f hf
    exact extractElementsF_fuel f lines acc (lines.length + 1) hf (Nat.lt_succ_self _)

/-- C1: on an input made of disjoint comment-run-then-signature pairs
interspersed with non-qualifying lines, extractElements returns exactly one
Element per pair, in source order, carrying that run's stripped lines joined
with newlines as description and that pair's captured signature line (trimmed,
trailing brace removed) as signature. -/
theorem extractElements_pairs (pfx : Line) (ign : Bool)
    (junk0 : List Line) (blocks : List (List Line × Line × List Line))
    (hj : ∀ l ∈ junk0, isDocLine pfx l = false)
    (hb : ∀ b ∈ blocks, goodBlock pfx ign b) :
    (extractElements (junk0 ++ assemble blocks) pfx ign).1.map
        (fun e => (e.Description, e.Signature)) =
      blocks.map (fun b =>
        (List.intercalate ['\n'] (b.1.map (stripDoc pfx)),
         stripBraceEnd (trimSpace b.2.1))) := by
  obtain ⟨elts, h1, h2⟩ := extractElements_blocks blocks junk0 []
    ((junk0 ++ assemble blocks).length + 1) hj hb (Nat.lt_succ_self _)
  unfold extractElements
  rw [h1]
  simpa using h2

/-- C1 witness: two concrete pairs with interspersed junk produce exactly the
two expected description/signature records. -/
theorem extractElements_pairs_witness :
    (extractElements ((["code".toList] : List Line) ++ assemble
        [(["/// a".toList], "int f(x) \x7b".toList, ["junk".toList]),
         (["/// b".toList, "/// c".toList], "class D".toList, [])])
      ("///".toList) false).1.map (fun e => (e.Description, e.Signature)) =
      ([(["/// a".toList], "int f(x) \x7b".toList, ["junk".toList]),
        (["/// b".toList, "/// c".toList], "class D".toList, [])] :
          List (List Line × Line × List Line)).map (fun b =>
        (List.intercalate ['\n'] (b.1.map (stripDoc ("///".toList))),
         stripBraceEnd (trimSpace b.2.1))) :=
  extractElements_pairs ("///".toList) false _ _ (by decide) (by decide)

/-- C2: extractTopComment returns the stripped leading qualifying lines joined
with newlines together with the unchanged suffix starting at the terminating
line inclusive, and on the documented example yields the expected description
and remainder. -/
theorem extractTopComment_spec :
    (∀ (lines : List Line) (pfx : Line) (ign : Bool), ∃ k, k ≤ lines.length ∧
      extractTopComment lines pfx ign =
        (List.intercalate ['\n']
          (((lines.take k).filter
              (fun l => !(ign && isIndentedAt pfx l))).map (stripDoc pfx)),
         lines.drop k) ∧
      (∀ l ∈ lines.take k, isDocLine pfx l = true) ∧
      (∀ l, (lines.drop k).head? = some l → isDocLine pfx l = false)) ∧
    extractTopComment
      ["/// File does X.".toList, "/// More info.".toList, "code line 1".toList]
      ("///".toList) false
      = ("File does X.\nMore info.".toList, ["code line 1".toList]) := by
  constructor
  · intro lines pfx ign
    obtain ⟨k, hk, heq, hall, hstop⟩ := extractTopCommentAux_spec pfx ign lines
    exact ⟨k, hk, by unfold extractTopComment; rw [heq], hall, hstop⟩
  · decide

/-- C3: with indentation exclusion enabled, an indented comment line is
skipped while seeking the start of a run, both in extractTopComment and in
extractElements, yet once a run's collection has begun such a line is included
in the description. -/
theorem indentation_asymmetry :
    (∀ (pfx l : Line) (rest : List Line), isDocLine pfx l = true →
      isIndentedAt pfx l = true →
      extractTopComment (l :: rest) pfx true = extractTopComment rest pfx true) ∧
    (∀ (pfx l : Line) (rest : List Line), isDocLine pfx l = true →
      isIndentedAt pfx l = true →
      extractElements (l :: rest) pfx true = extractElements rest pfx true) ∧
    (∀ (pfx l0 l1 : Line) (rest : List Line), isDocLine pfx l0 = true →
      isIndentedAt pfx l0 = false → isDocLine pfx l1 = true →
      ((extractElements (l0 :: l1 :: rest) pfx true).1.head?).map Element.Description =
        some (List.intercalate ['\n']
          (stripDoc pfx l0 :: stripDoc pfx l1 :: (collectDesc pfx rest).1))) := by
  refine ⟨?_, ?_, ?_⟩
  · intro pfx l rest h1 h2
    unfold extractTopComment
    rw [extractTopCommentAux_cons_skip rest h1 (by simp [h2])]
  · intro pfx l rest h1 h2
    unfold extractElements
    simp only [List.length_cons]
    rw [extractElementsF_cons_skip (rest.length + 1) rest [] h1 (by simp [h2])]
  · intro pfx l0 l1 rest h0 h0i h1
    unfold extractElements
    simp only [List.length_cons]
    have hskip0 : (true && isIndentedAt pfx l0) = false := by simp [h0i]
    have hstep := extractElementsF_cons_emit
      (rest.length + 1 + 1) (l1 :: rest) [] h0 hskip0
    rw [collectDesc_cons_doc rest h1] at hstep
    simp only at hstep
    rw [hstep]
    obtain ⟨r, hr⟩ := extractElementsF_total pfx true
      (rest.length + 1 + 1)
      ((captureSig (skipBlankComments pfx (collectDesc pfx rest).2)).2)
      ([] ++ [{ ID := emittedID
                  (captureSig (skipBlankComments pfx (collectDesc pfx rest).2)).1
                  ([] : List Element).length,
                Description := List.intercalate ['\n']
                  (stripDoc pfx l0 :: stripDoc pfx l1 :: (collectDesc pfx rest).1),
                Signature :=
                  (captureSig (skipBlankComments pfx (collectDesc pfx rest).2)).1 }])
      (lt_of_le_of_lt (extractElementsF_rest_length pfx rest) (by omega))
    rw [hr]
    obtain ⟨more, hm⟩ := extractElementsF_acc_prefix _ _ _ _ hr
    simp only [Option.getD_some, hm, List.nil_append, List.cons_append, List.head?_cons]
    rfl

/-- C4: identifier derivation applies the class/struct rule first, then the
first word token followed by an opening parenthesis, then the first
whitespace-delimited token, and otherwise yields the empty string, for which
the element extractor synthesizes unnamed_k. -/
theorem extractIDFromSig_spec :
    (∀ kw ws w rest : Line, (kw = "class".toList ∨ kw = "struct".toList) →
      ws ≠ [] → (∀ c ∈ ws, isRegexSpace c = true) →
      w ≠ [] → (∀ c ∈ w, isWordChar c = true) →
      (∀ c, rest.head? = some c → isWordChar c = false) →
      extractIDFromSig (kw ++ (ws ++ (w ++ rest))) = w) ∧
    (∀ w ws rest : Line, w ≠ [] → (∀ c ∈ w, isWordChar c = true) →
      (∀ c ∈ ws, isRegexSpace c = true) →
      extractIDFromSig (w ++ (ws ++ ('(' :: rest))) = w) ∧
    (∀ sig : Line, matchClassStruct sig = none → '(' ∉ sig →
      extractIDFromSig sig = firstField sig) ∧
    (extractIDFromSig ("class Widget".toList) = "Widget".toList) ∧
    (extractIDFromSig ("int add(int a, int b)".toList) = "add".toList) ∧
    (extractIDFromSig ("struct A b(c)".toList) = "A".toList) ∧
    (extractIDFromSig [] = []) ∧
    ((extractElements ["/// a".toList, "x y".toList, "/// b".toList]
        ("///".toList) false).1.map Element.ID
      = ["x".toList, "unnamed_1".toList]) := by
  refine ⟨?_, ?_, ?_, by decide, by decide, by decide, rfl, by decide⟩
  · exact fun kw ws w rest h1 h2 h3 h4 h5 h6 =>
      extractIDFromSig_keyword h1 h2 h3 h4 h5 h6
  · exact fun w ws rest h1 h2 h3 => extractIDFromSig_paren h1 h2 h3
  · exact fun sig h1 h2 => extractIDFromSig_first_token h1 h2

/-- C5: signature capture: a non-blank current line is recorded trimmed with a
trailing whitespace-run-plus-brace removed and one line is consumed; a blank
line or exhausted input records the empty signature and consumes nothing; on
the documented example the signature is "int add(int a, int b)". -/
theorem captureSig_spec :
    (captureSig [] = ([], [])) ∧
    (∀ (l : Line) (rest : List Line), (trimSpace l).isEmpty = true →
      captureSig (l :: rest) = ([], l :: rest)) ∧
    (∀ (l : Line) (rest : List Line), (trimSpace l).isEmpty = false →
      (trimSpace l).getLast? ≠ some '\x7b' →
      captureSig (l :: rest) = (trimSpace l, rest)) ∧
    (∀ (l : Line) (rest : List Line) (body ws : Line),
      trimSpace l = (body ++ ws) ++ ['\x7b'] →
      (∀ c ∈ ws, isRegexSpace c = true) →
      (∀ c, body.getLast? = some c → isRegexSpace c = false) →
      captureSig (l :: rest) = (body, rest)) ∧
    ((extractElements
        ["".toList, "/// Computes sum.".toList,
         "int add(int a, int b) \x7b".toList, "".toList]
        ("///".toList) false).1
      = [{ ID := "add".toList, Description := "Computes sum.".toList,
           Signature := "int add(int a, int b)".toList }]) := by
  refine ⟨rfl, ?_, ?_, ?_, by decide⟩
  · exact fun l rest h => captureSig_blank rest h
  · intro l rest h1 h2
    rw [captureSig_nonblank rest h1, stripBraceEnd_no_brace h2]
  · intro l rest body ws heq hws hbody
    have h1 : (trimSpace l).isEmpty = false := by
      rw [heq]
      simp
    rw [captureSig_nonblank rest h1, heq, stripBraceEnd_brace hws hbody]

/-- C6: ProcessBacklinks rewrites every bracketed token whose text is a key of
the index into a markdown hyperlink, leaves tokens with no matching key and
all surrounding text byte-for-byte unchanged, and rewrites the documented
example accordingly. -/
theorem processBacklinks_spec :
    (∀ (idx : List (Line × Line)) (s p : Line), hasToken s = false →
      ProcessBacklinks s idx p = s) ∧
    (∀ (idx : List (Line × Line)) (a t b p : Line),
      (∀ c ∈ a, c ≠ '[') → t ≠ [] → (∀ c ∈ t, c ≠ ']') →
      ProcessBacklinks (a ++ '[' :: (t ++ ']' :: b)) idx p =
        a ++ resolveToken idx t ++ ProcessBacklinks b idx p) ∧
    (ProcessBacklinks ("See [add] and [missing].".toList)
      [("add".toList, "math.md#add".toList)] ("///".toList)
      = "See [add](math.md#add) and [missing].".toList) := by
  refine ⟨?_, ?_, by decide⟩
  · intro idx s p h
    exact processBacklinksF_no_token idx s.length s le_rfl h
  · intro idx a t b p ha ht htc
    unfold ProcessBacklinks
    exact processBacklinksF_decompose idx a t b _ ha ht htc le_rfl

/-- C7: ProcessBacklinks is not idempotent: applied twice to a description
whose token is an index key, the second run re-matches the inner bracketed
token of the first rewrite and appends a second location suffix. -/
theorem processBacklinks_not_idempotent :
    ProcessBacklinks (ProcessBacklinks ("[add]".toList)
        [("add".toList, "math.md#add".toList)] ("///".toList))
      [("add".toList, "math.md#add".toList)] ("///".toList)
      ≠ ProcessBacklinks ("[add]".toList)
        [("add".toList, "math.md#add".toList)] ("///".toList) := by
  decide

/-- C8 counterexample: the collected line "/// a " is stored as "a": the
line's trailing whitespace is removed, not preserved verbatim as the claim
states. -/
theorem stripDoc_trailing_not_preserved :
    (extractTopComment ["/// a ".toList] ("///".toList) false).1 = "a".toList ∧
    (extractTopComment ["/// a ".toList] ("///".toList) false).1 ≠ "a ".toList := by
  decide

/-- C8 amended: a collected comment line is stored as the whitespace-trimmed
source line with the prefix and at most one single following space removed;
whitespace interior to the remaining content is preserved verbatim, while the
line's own leading and trailing whitespace is trimmed. -/
theorem stripDoc_spec :
    (∀ pfx c ws1 ws2 : Line, (∀ x ∈ ws1, isSpace x = true) →
      (∀ x ∈ ws2, isSpace x = true) → trimSpace (pfx ++ c) = pfx ++ c →
      stripDoc pfx (ws1 ++ (pfx ++ c) ++ ws2) =
        if c.head? = some ' ' then c.tail else c) ∧
    (∀ (pfx line : Line) (ign : Bool), isDocLine pfx line = true →
      (ign && isIndentedAt pfx line) = false →
      extractTopComment [line] pfx ign = (stripDoc pfx line, [])) := by
  constructor
  · exact fun pfx c ws1 ws2 h1 h2 h3 => stripDoc_pad ws1 ws2 h1 h2 h3
  · exact fun pfx line ign h1 h2 => extractTopComment_single h1 h2

/-- C9 counterexample: a comment run that reaches end of input with no
following content still produces an Element, with empty signature and a
synthesized identifier, contrary to the claim that it produces none. -/
theorem run_without_content_emits :
    (extractElements ["/// hello".toList] ("///".toList) false).1 =
      [{ ID := "unnamed_0".toList, Description := "hello".toList,
         Signature := [] }] := by
  decide

/-- C9 amended: a non-empty comment run followed by no content (end of input,
or only blank lines to end of input) yields exactly one Element whose
signature is the empty string; it is not dropped. -/
theorem extractElements_tail_run_spec (pfx : Line) (ign : Bool)
    (junk0 run blanks : List Line)
    (hj : ∀ l ∈ junk0, isDocLine pfx l = false)
    (hrun : run ≠ [])
    (hdocs : ∀ l ∈ run, isDocLine pfx l = true ∧ (ign && isIndentedAt pfx l) = false)
    (hbl : ∀ l ∈ blanks, (trimSpace l).isEmpty = true ∧ isDocLine pfx l = false) :
    (extractElements (junk0 ++ run ++ blanks) pfx ign).1.map
        (fun e => (e.Description, e.Signature)) =
      [(List.intercalate ['\n'] (run.map (stripDoc pfx)), [])] := by
  unfold extractElements
  rw [extractElementsF_tail_run junk0 run blanks [] _ hj hrun hdocs hbl
    (Nat.lt_succ_self _)]
  simp

/-- C9 amended witness: junk, then a one-line run, then a blank line: one
Element with empty signature. -/
theorem extractElements_tail_run_spec_witness :
    (extractElements ((["x".toList] : List Line) ++ ["/// doc".toList] ++ ["".toList])
        ("///".toList) false).1.map (fun e => (e.Description, e.Signature)) =
      [(List.intercalate ['\n'] (["/// doc".toList].map (stripDoc ("///".toList))), [])] :=
  extractElements_tail_run_spec ("///".toList) false _ _ _
    (by decide) (by decide) (by decide) (by decide)

end Kdoc
